import Mathlib

/-!
A shallow embedding of the pyomo5 symbolic expression engine
(`pyomo.core.base.expr_pyomo5`), whose behaviour is described by the
repository specification (node model, builder/operator protocol,
aliasing-aware mutation, chained-relational context, compression engine,
property evaluator and variable enumerator).

Expression graphs are modelled as an arena: a list of nodes addressed by
index, so that object identity (sharing of leaves, freshness of cloned
interior nodes, in-place mutation of one tree not affecting another) is
directly expressible.  Numeric values are rationals.  Recursive analyses
are fuel-indexed structural recursions so that all definitions compute.
-/

deriving instance DecidableEq for Except

namespace PyomoExpr

/-- An operand of an expression node: either a raw host number (python
ints/floats that appear directly in argument lists) or a reference to a
node in the arena. -/
inductive Operand where
  | num (c : ℚ)
  | node (i : ℕ)
deriving DecidableEq, Repr

/-- The kind tag of an interior (non-leaf) expression node. -/
inductive IKind where
  | sum
  | csum
  | prod
  | recip
  | pw
  | unary (u : ℕ)
  | extfn (f : ℕ)
deriving DecidableEq, Repr

/-- An expression node stored in the arena: a constant leaf, a variable
leaf, a parameter leaf (mutable or immutable) or an interior node with a
kind tag and an ordered list of child operands. -/
inductive Node where
  | const (c : ℚ)
  | varLeaf (v : ℕ)
  | paramLeaf (mutb : Bool) (p : ℕ)
  | interior (k : IKind) (args : List Operand)
deriving DecidableEq, Repr

/-- The evaluation environment: current variable values, variable fixed
flags, parameter values, unary-function and external-function semantics. -/
structure Env where
  V : ℕ → ℚ
  F : ℕ → Bool
  P : ℕ → ℚ
  U : ℕ → ℚ → ℚ
  X : ℕ → List ℚ → ℚ

/-- Child operand list of a node (leaves have none). -/
def childOps : Node → List Operand
  | .interior _ args => args
  | _ => []

/-- Whether a node is a leaf (constant, variable or parameter). -/
def isLeafNode : Node → Bool
  | .interior _ _ => false
  | _ => true

/-- Whether the arena entry at index `i` is a leaf node. -/
def isLeafAt (h : List Node) (i : ℕ) : Bool :=
  match h[i]? with
  | some nd => isLeafNode nd
  | none => false

/-- Bound check for an operand: node references must be below `m`. -/
def opLt (x : Operand) (m : ℕ) : Bool :=
  match x with
  | .num _ => true
  | .node i => decide (i < m)

/-- Bound check for a list of operands. -/
def argsLt (as : List Operand) (m : ℕ) : Bool :=
  as.all (opLt · m)

/-- Well-formedness of one arena entry: all children point strictly below
the node's own index (the arena is built bottom-up). -/
def okNode (i : ℕ) (nd : Node) : Bool :=
  argsLt (childOps nd) i

/-- Well-formed arena: every entry's children point strictly below it. -/
def wfh (h : List Node) : Bool :=
  (List.range h.length).all (fun i =>
    match h[i]? with
    | some nd => okNode i nd
    | none => true)

/-- Sequence a list of optional values. -/
def seqOpt {α : Type} : List (Option α) → Option (List α)
  | [] => some []
  | o :: os => o.bind fun v => (seqOpt os).map fun vs => v :: vs

/-- Combine already-evaluated child values according to the node kind.
Sums (raw or compressed) add all children; a raw product multiplies its
two children; a reciprocal inverts its single child; a power raises to an
integer exponent; unary and external functions defer to the environment. -/
def applyKind (env : Env) (k : IKind) (vs : List ℚ) : Option ℚ :=
  match k with
  | .sum => some vs.sum
  | .csum => some vs.sum
  | .prod =>
    match vs with
    | [a, b] => some (a * b)
    | _ => none
  | .recip =>
    match vs with
    | [a] => some (1 / a)
    | _ => none
  | .pw =>
    match vs with
    | [a, b] => if b.den = 1 then some (a ^ b.num) else none
    | _ => none
  | .unary u =>
    match vs with
    | [a] => some (env.U u a)
    | _ => none
  | .extfn f => some (env.X f vs)

/-- One evaluation step, parametric in the recursive evaluator used for
child operands. -/
def evalStep (h : List Node) (env : Env) (rec : Operand → Option ℚ) :
    Operand → Option ℚ
  | .num c => some c
  | .node i =>
    match h[i]? with
    | none => none
    | some (.const c) => some c
    | some (.varLeaf v) => some (env.V v)
    | some (.paramLeaf _ p) => some (env.P p)
    | some (.interior k args) => (seqOpt (args.map rec)).bind (applyKind env k)

/-- Fuel-indexed numeric evaluation of an operand over an arena. -/
def evalOp (h : List Node) (env : Env) : ℕ → Operand → Option ℚ
  | 0 => fun x =>
    match x with
    | .num c => some c
    | .node _ => none
  | n + 1 => evalStep h env (evalOp h env n)

/-- One step of the reachable-node-id computation. -/
def reachStep (h : List Node) (rec : Operand → List ℕ) : Operand → List ℕ
  | .num _ => []
  | .node i =>
    i :: (match h[i]? with
          | some (.interior _ args) => (args.map rec).flatten
          | _ => [])

/-- Fuel-indexed list of arena indices reachable from an operand. -/
def reach (h : List Node) : ℕ → Operand → List ℕ
  | 0 => fun x =>
    match x with
    | .num _ => []
    | .node i => [i]
  | n + 1 => reachStep h (reach h n)

/-- Numeric view of an operand: a raw number, or a constant leaf node. -/
def asNum (h : List Node) (x : Operand) : Option ℚ :=
  match x with
  | .num c => some c
  | .node i =>
    match h[i]? with
    | some (.const c) => some c
    | _ => none

/-- One step of the constancy analysis (`is_constant`): true only for
numbers, constant leaves and immutable parameter leaves, propagated
through interior nodes; variables and mutable parameters are never
constant. -/
def isConstStep (h : List Node) (rec : Operand → Bool) : Operand → Bool
  | .num _ => true
  | .node i =>
    match h[i]? with
    | some (.const _) => true
    | some (.varLeaf _) => false
    | some (.paramLeaf mutb _) => !mutb
    | some (.interior _ args) => args.all rec
    | none => false

/-- Fuel-indexed `is_constant` analysis. -/
def isConstOp (h : List Node) : ℕ → Operand → Bool
  | 0 => fun x =>
    match x with
    | .num _ => true
    | .node _ => false
  | n + 1 => isConstStep h (isConstOp h n)

/-- One step of the fixedness analysis (`is_fixed`): numbers, constants
and parameters (mutable or not) are fixed; a variable is fixed iff its
fixed flag is set; interior nodes are fixed iff all children are. -/
def isFixedStep (h : List Node) (env : Env) (rec : Operand → Bool) :
    Operand → Bool
  | .num _ => true
  | .node i =>
    match h[i]? with
    | some (.const _) => true
    | some (.varLeaf v) => env.F v
    | some (.paramLeaf _ _) => true
    | some (.interior _ args) => args.all rec
    | none => false

/-- Fuel-indexed `is_fixed` analysis. -/
def isFixedOp (h : List Node) (env : Env) : ℕ → Operand → Bool
  | 0 => fun x =>
    match x with
    | .num _ => true
    | .node _ => false
  | n + 1 => isFixedStep h env (isFixedOp h env n)

/-- One step of the depth-first variable-occurrence enumeration; external
function argument lists are interior children and are traversed exactly
like any other child list. -/
def varOccsStep (h : List Node) (rec : Operand → List ℕ) : Operand → List ℕ
  | .num _ => []
  | .node i =>
    match h[i]? with
    | some (.varLeaf _) => [i]
    | some (.interior _ args) => (args.map rec).flatten
    | _ => []

/-- Fuel-indexed depth-first, left-to-right list of every occurrence of a
variable leaf reachable from an operand (arena indices, one per
occurrence). -/
def varOccs (h : List Node) : ℕ → Operand → List ℕ
  | 0 => fun _ => []
  | n + 1 => varOccsStep h (varOccs h n)

/-- Keep the first occurrence of each element not yet seen, dropping
elements of `seen` and later duplicates. -/
def dedupFirstAux : List ℕ → List ℕ → List ℕ
  | _, [] => []
  | seen, x :: xs =>
    if x ∈ seen then dedupFirstAux seen xs
    else x :: dedupFirstAux (x :: seen) xs

/-- Keep the first occurrence of each element, dropping later duplicates. -/
def dedupFirst (l : List ℕ) : List ℕ :=
  dedupFirstAux [] l

/-- The variable enumerator: every occurrence when duplicates are allowed,
otherwise deduplicated by identity keeping first encounters. -/
def identifyVariables (h : List Node) (n : ℕ) (allowDuplicates : Bool)
    (x : Operand) : List ℕ :=
  if allowDuplicates then varOccs h n x else dedupFirst (varOccs h n x)

/-- Polynomial degree result: a finite degree or the non-polynomial
sentinel. -/
inductive Deg where
  | poly (n : ℕ)
  | nonpoly
deriving DecidableEq, Repr

/-- Maximum of child degrees (for sums); any non-polynomial child makes
the result non-polynomial. -/
def maxDeg : List Deg → Deg
  | [] => .poly 0
  | d :: ds =>
    match d, maxDeg ds with
    | .poly a, .poly b => .poly (max a b)
    | _, _ => .nonpoly

/-- Sum of child degrees (for products); any non-polynomial child makes
the result non-polynomial. -/
def addDeg : List Deg → Deg
  | [] => .poly 0
  | d :: ds =>
    match d, addDeg ds with
    | .poly a, .poly b => .poly (a + b)
    | _, _ => .nonpoly

/-- Combine child degrees according to the node kind.  Sums take the max,
products the sum; reciprocals and unary functions are non-polynomial
unless the child subtree has degree 0; external calls are never
polynomial.  For powers: if the exponent subtree is fixed (degree 0), its
value is evaluated — a non-negative integer exponent multiplies the base
degree (with a degree-0 escape for a zero exponent), any other value is
non-polynomial unless the base has degree 0; a non-fixed exponent is
non-polynomial. -/
def degKind (h : List Node) (env : Env) (n : ℕ) (k : IKind)
    (args : List Operand) (ds : List Deg) : Option Deg :=
  match k with
  | .sum => some (maxDeg ds)
  | .csum => some (maxDeg ds)
  | .prod => some (addDeg ds)
  | .recip =>
    match ds with
    | [d] => some (if d = .poly 0 then .poly 0 else .nonpoly)
    | _ => none
  | .unary _ =>
    match ds with
    | [d] => some (if d = .poly 0 then .poly 0 else .nonpoly)
    | _ => none
  | .extfn _ => some .nonpoly
  | .pw =>
    match args, ds with
    | [_, e], [db, de] =>
      if de = .poly 0 then
        match evalOp h env n e with
        | none => none
        | some q =>
          if q.den = 1 ∧ 0 ≤ q.num then
            match db with
            | .poly m => some (.poly (m * q.num.toNat))
            | .nonpoly => if q = 0 then some (.poly 0) else some .nonpoly
          else if db = .poly 0 then some (.poly 0) else some .nonpoly
      else some .nonpoly
    | _, _ => none

/-- One step of the polynomial-degree analysis. -/
def degStep (h : List Node) (env : Env) (n : ℕ)
    (rec : Operand → Option Deg) : Operand → Option Deg
  | .num _ => some (.poly 0)
  | .node i =>
    match h[i]? with
    | none => none
    | some (.const _) => some (.poly 0)
    | some (.varLeaf v) => some (if env.F v then .poly 0 else .poly 1)
    | some (.paramLeaf _ _) => some (.poly 0)
    | some (.interior k args) =>
      (seqOpt (args.map rec)).bind (degKind h env n k args)

/-- Fuel-indexed polynomial degree of an operand (`none` = out of fuel or
malformed node, `some .nonpoly` = the non-polynomial sentinel). -/
def degOp (h : List Node) (env : Env) : ℕ → Operand → Option Deg
  | 0 => fun x =>
    match x with
    | .num _ => some (.poly 0)
    | .node _ => none
  | n + 1 => degStep h env n (degOp h env n)

/-! ## Builder / operator protocol (§4.1)

Each binary operator is a pure function of the arena and its operands; it
either returns an operand unchanged (identity elimination), folds two
numeric operands to a raw number, or appends a freshly built node. -/

/-- Errors raised synchronously by the builder protocol. -/
inductive PyErr where
  | zeroDivision
  | tooManyTerms
  | indexedOperand
  | bothRelational
  | equalityRelational
  | mismatchedStrictness
  | twoLowerBounds
  | twoUpperBounds
  | unexpectedBooleanContext
deriving DecidableEq, Repr

/-- The host-language error class each error is reported as. -/
inductive PyClass where
  | typeError
  | valueError
  | zeroDivisionError
deriving DecidableEq, Repr

/-- Error classification: chaining past 3 operands is a `ValueError`,
division by a literal zero a `ZeroDivisionError`, and every other
builder/relational misuse a `TypeError`. -/
def pyClass : PyErr → PyClass
  | .tooManyTerms => .valueError
  | .zeroDivision => .zeroDivisionError
  | _ => .typeError

/-- Membership in the `ConstructionError` taxonomy of the specification:
malformed relational chains, indexed-operand misuse and
equality-of-relational are construction errors raised at build time. -/
def isConstructionError : PyErr → Bool
  | .zeroDivision => false
  | _ => true

/-- Addition.  A raw zero on either side returns the other operand
itself; two numeric operands fold to a raw number; otherwise a binary
sum node is appended (with a raw number placed in the first slot, as the
engine stores numeric offsets first). -/
def addOp (h : List Node) (x y : Operand) : List Node × Operand :=
  match y with
  | .num b =>
    if b = 0 then (h, x)
    else
      match asNum h x with
      | some a => (h, .num (a + b))
      | none => (h ++ [.interior .sum [.num b, x]], .node h.length)
  | _ =>
    match x with
    | .num a =>
      if a = 0 then (h, y)
      else
        match asNum h y with
        | some b => (h, .num (a + b))
        | none => (h ++ [.interior .sum [.num a, y]], .node h.length)
    | _ =>
      match asNum h x, asNum h y with
      | some a, some b => (h, .num (a + b))
      | _, _ => (h ++ [.interior .sum [x, y]], .node h.length)

/-- Multiplication with identity elimination: a numeric zero annihilates,
a numeric one returns the other operand, two numerics fold, and otherwise
a binary product node is appended. -/
def mulOp (h : List Node) (x y : Operand) : List Node × Operand :=
  match asNum h x, asNum h y with
  | some a, some b => (h, .num (a * b))
  | some a, none =>
    if a = 0 then (h, .num 0)
    else if a = 1 then (h, y)
    else (h ++ [.interior .prod [x, y]], .node h.length)
  | none, some b =>
    if b = 0 then (h, .num 0)
    else if b = 1 then (h, x)
    else (h ++ [.interior .prod [x, y]], .node h.length)
  | none, none => (h ++ [.interior .prod [x, y]], .node h.length)

/-- Division `x / y`.  Dividing by a literal (numeric) zero fails with a
`ZeroDivisionError`; dividing by a literal one returns `x` itself; two
numerics fold; a zero dividend gives the raw number `0`; a unit dividend
gives a reciprocal node whose single child is `y`; the general case is a
product with a reciprocal. -/
def divOp (h : List Node) (x y : Operand) :
    Except PyErr (List Node × Operand) :=
  match asNum h y with
  | some b =>
    if b = 0 then .error .zeroDivision
    else if b = 1 then .ok (h, x)
    else
      match asNum h x with
      | some a => .ok (h, .num (a / b))
      | none =>
        .ok (h ++ [.interior .prod [.num (1 / b), x]], .node h.length)
  | none =>
    match asNum h x with
    | some a =>
      if a = 0 then .ok (h, .num 0)
      else if a = 1 then .ok (h ++ [.interior .recip [y]], .node h.length)
      else
        .ok (h ++ [.interior .recip [y],
                   .interior .prod [.num a, .node h.length]],
             .node (h.length + 1))
    | none =>
      .ok (h ++ [.interior .recip [y], .interior .prod [x, .node h.length]],
           .node (h.length + 1))

/-- Power `x ** y`.  A numeric exponent of zero gives the raw number 1, of
one gives `x` itself; two numerics with a non-negative integer exponent
fold; otherwise a power node is appended. -/
def powOp (h : List Node) (x y : Operand) : List Node × Operand :=
  match asNum h y with
  | some b =>
    if b = 0 then (h, .num 1)
    else if b = 1 then (h, x)
    else
      match asNum h x with
      | some a =>
        if b.den = 1 ∧ 0 ≤ b.num then (h, .num (a ^ b.num))
        else (h ++ [.interior .pw [x, y]], .node h.length)
      | none => (h ++ [.interior .pw [x, y]], .node h.length)
  | none => (h ++ [.interior .pw [x, y]], .node h.length)

/-- In-place extension of the child list of the interior node at index
`i` (the exclusive-ownership fast path of the aliasing-aware mutation
strategy, §4.2): the arena entry itself is mutated. -/
def extendSum (h : List Node) (i : ℕ) (t : Operand) : List Node :=
  match h[i]? with
  | some (.interior k args) => h.set i (.interior k (args ++ [t]))
  | _ => h

/-! ## Cloning (§3 lifecycle)

Cloning produces an independent node graph: leaf nodes (variables,
parameters, constants) are shared by identity (the same arena index is
returned and nothing is allocated), while every interior node is
duplicated — its children are cloned first, then a fresh copy of the node
is appended to the arena. -/

/-- Clone each operand of a list in order, threading the arena through,
using `c1` to clone one operand. -/
def cloneListWith (c1 : List Node → Operand → List Node × Operand) :
    List Node → List Operand → List Node × List Operand
  | h, [] => (h, [])
  | h, x :: xs =>
    let p := c1 h x
    let q := cloneListWith c1 p.1 xs
    (q.1, p.2 :: q.2)

/-- Clone one operand: raw numbers and leaf nodes are returned unchanged
(leaves are shared by identity); an interior node has its child list
cloned by `rec` and a fresh copy appended to the arena. -/
def cloneStep (rec : List Node → List Operand → List Node × List Operand)
    (h : List Node) (x : Operand) : List Node × Operand :=
  match x with
  | .num c => (h, .num c)
  | .node i =>
    match h[i]? with
    | some (.interior k args) =>
      let p := rec h args
      (p.1 ++ [.interior k p.2], .node p.1.length)
    | _ => (h, .node i)

/-- Fuel-indexed cloning of a list of operands. -/
def cloneArgs : ℕ → List Node → List Operand → List Node × List Operand
  | 0 => fun h as => (h, as)
  | n + 1 => cloneListWith (cloneStep (cloneArgs n))

/-- Fuel-indexed cloning of a single operand. -/
def cloneOp (n : ℕ) (h : List Node) (x : Operand) : List Node × Operand :=
  cloneStep (cloneArgs n) h x

/-! ## Compression engine (§4.4)

Compression is purely structural and non-mutating: it reads the input
tree, collects the terms of the (possibly nested) sums, and appends one
new flattened compressed-sum node whose argument 0 is the accumulated
numeric constant; the input arena entries are never modified. -/

/-- View an operand as a sum node, returning its argument list. -/
def sumArgsOf (h : List Node) (x : Operand) : Option (List Operand) :=
  match x with
  | .num _ => none
  | .node i =>
    match h[i]? with
    | some (.interior .sum args) => some args
    | some (.interior .csum args) => some args
    | _ => none

/-- Whether an operand is a raw number. -/
def isNumOp : Operand → Bool
  | .num _ => true
  | .node _ => false

/-- Raw numeric value of an operand, if any. -/
def numOf : Operand → Option ℚ
  | .num c => some c
  | .node _ => none

/-- One step of sum flattening.  A non-sum operand contributes itself as
a term (or its value to the constant if it is a raw number).  For a sum
node the nested sum children are flattened first (their terms come
first), then the remaining non-sum children are appended, with raw
numeric children accumulated into the constant. -/
def flatStep (h : List Node) (rec : Operand → ℚ × List Operand)
    (x : Operand) : ℚ × List Operand :=
  match sumArgsOf h x with
  | none =>
    match x with
    | .num c => (c, [])
    | _ => (0, [x])
  | some args =>
    let subs := (args.filter (fun a => (sumArgsOf h a).isSome)).map rec
    let rest := args.filter (fun a => (sumArgsOf h a).isNone)
    ((subs.map Prod.fst).sum + (rest.filterMap numOf).sum,
     (subs.map Prod.snd).flatten ++ rest.filter (fun a => !isNumOp a))

/-- Fuel-indexed flattening of a sum tree into an accumulated constant
and the list of non-sum, non-numeric terms. -/
def flatOne (h : List Node) : ℕ → Operand → ℚ × List Operand
  | 0 => fun x => (0, [x])
  | n + 1 => flatStep h (flatOne h n)

/-- Compress an expression: a non-sum operand is returned unchanged; a
sum tree is flattened and a single fresh compressed-sum node is appended,
with the accumulated numeric constant stored at argument position 0. -/
def compress (h : List Node) (n : ℕ) (x : Operand) : List Node × Operand :=
  match sumArgsOf h x with
  | none => (h, x)
  | some _ =>
    let p := flatOne h n x
    (h ++ [.interior .csum (.num p.1 :: p.2)], .node h.length)

/-- The number of children of the arena node referenced by an operand. -/
def nArgsOf (h : List Node) (x : Operand) : ℕ :=
  match x with
  | .num _ => 0
  | .node i =>
    match h[i]? with
    | some nd => (childOps nd).length
    | none => 0

/-! ## Chained-relational context (§4.3)

Relational operators normalize to less-than orientation.  A first binary
call constructs a 2-child inequality and stores it in the ambient pending
slot; a second call whose operands join onto an end of the pending
inequality rewrites it into a 3-child double-sided inequality, consuming
the slot.  Equal numeric bounds collapse to an equality or fail on
mismatched strictness; joining onto the wrong end is a directional-bound
error; a stale non-constant pending makes the next operation fail with an
unexpected-boolean-context error. -/

/-- Relational operator tags. -/
inductive RelOp where
  | lt
  | le
  | gt
  | ge
  | eqOp
deriving DecidableEq, Repr

/-- Whether the operator is strict. -/
def strictOf : RelOp → Bool
  | .lt => true
  | .gt => true
  | _ => false

/-- Whether the operator is an inequality (rather than equality). -/
def isIneqOp : RelOp → Bool
  | .eqOp => false
  | _ => true

/-- A relational expression: an inequality with 2 or 3 children and a
parallel strictness-flag list (length = children − 1), or an equality
with exactly 2 children. -/
inductive RelNode where
  | ineq (args : List Operand) (strict : List Bool)
  | eqn (a b : Operand)
deriving DecidableEq, Repr

/-- An operand of a relational operator call: a scalar numeric operand, a
relational expression, or an indexed (non-scalar) collection misused
where a scalar is required. -/
inductive RelOperand where
  | o (x : Operand)
  | r (e : RelNode)
  | indexed
deriving DecidableEq, Repr

/-- The child operands of a relational expression. -/
def relArgs : RelNode → List Operand
  | .ineq args _ => args
  | .eqn a b => [a, b]

/-- A pending relational expression blocks later operations when it is
un-fixed and non-constant. -/
def relStale (h : List Node) (env : Env) (n : ℕ) (p : RelNode) : Bool :=
  !(relArgs p).all (isFixedOp h env n) && !(relArgs p).all (isConstOp h n)

/-- Truth of a chain of comparisons over evaluated values. -/
def chainOk : List ℚ → List Bool → Bool
  | a :: b :: rest, s :: ss =>
    (if s then decide (a < b) else decide (a ≤ b)) && chainOk (b :: rest) ss
  | _, _ => true

/-- Evaluate the truth value of a relational expression. -/
def evalRel (h : List Node) (env : Env) (n : ℕ) : RelNode → Option Bool
  | .eqn a b =>
    (evalOp h env n a).bind fun u =>
      (evalOp h env n b).map fun v => decide (u = v)
  | .ineq args strict =>
    (seqOpt (args.map (evalOp h env n))).map fun vs => chainOk vs strict

/-- Finish building a 3-child inequality `l ≤ mid ≤ r` (strictness `s1`,
`s2`).  If both bounds are equal numeric values: mismatched strictness
flags fail with a clarity error, two non-strict flags collapse to an
equality with 2 children (keeping the joint operand and the bound on the
side that was just extended), and otherwise the inequality stands. -/
def finish3 (h : List Node) (up : Bool) (l mid r : Operand) (s1 s2 : Bool) :
    Except PyErr RelNode :=
  match asNum h l, asNum h r with
  | some v, some w =>
    if v = w then
      if s1 ≠ s2 then .error .mismatchedStrictness
      else if s1 then .ok (.ineq [l, mid, r] [s1, s2])
      else .ok (if up then .eqn mid r else .eqn l mid)
    else .ok (.ineq [l, mid, r] [s1, s2])
  | _, _ => .ok (.ineq [l, mid, r] [s1, s2])

/-- Relational construction with an empty pending slot.  Equalities
reject relational operands; inequalities normalize `>`/`>=` to
less-than orientation; a fresh 2-child inequality is stored as pending;
a 2-child inequality operand is extended to 3 children; extending a
3-child inequality fails with a `ValueError`-class too-many-terms error;
two relational operands, or an equality operand, fail with
`TypeError`-class composition errors. -/
def genRelFresh (h : List Node) (op : RelOp) (lhs rhs : RelOperand) :
    Except PyErr (RelNode × Option RelNode) :=
  match op with
  | .eqOp =>
    match lhs, rhs with
    | .o x, .o y => .ok (.eqn x y, none)
    | _, _ => .error .equalityRelational
  | _ =>
    let s := strictOf op
    let lo := if op = .gt ∨ op = .ge then rhs else lhs
    let hi := if op = .gt ∨ op = .ge then lhs else rhs
    match lo, hi with
    | .o x, .o y => .ok (.ineq [x, y] [s], some (.ineq [x, y] [s]))
    | .r _, .r _ => .error .bothRelational
    | .r e, .o c =>
      match e with
      | .eqn _ _ => .error .equalityRelational
      | .ineq [a, b] [s0] => (finish3 h true a b c s0 s).map fun q => (q, none)
      | .ineq _ _ => .error .tooManyTerms
    | .o c, .r e =>
      match e with
      | .eqn _ _ => .error .equalityRelational
      | .ineq [a, b] [s0] => (finish3 h false c a b s s0).map fun q => (q, none)
      | .ineq _ _ => .error .tooManyTerms
    | _, _ => .error .indexedOperand

/-- Relational construction with a pending 2-child inequality in the
slot.  If the new (normalized) call joins onto the upper end of the
pending inequality it extends upward, onto the lower end it extends
downward (consuming the slot); joining a second lower or upper bound is
a directional-bound error; otherwise the pending inequality is stale —
if it is un-fixed and non-constant the call fails with an
unexpected-boolean-context error, and a constant pending is dropped. -/
def genRelPending (h : List Node) (env : Env) (n : ℕ) (op : RelOp)
    (lhs rhs : RelOperand) (p : RelNode) :
    Except PyErr (RelNode × Option RelNode) :=
  let stale : Except PyErr (RelNode × Option RelNode) :=
    if relStale h env n p then .error .unexpectedBooleanContext
    else genRelFresh h op lhs rhs
  match p with
  | .ineq [a0, b0] [s0] =>
    if isIneqOp op then
      let lo := if op = .gt ∨ op = .ge then rhs else lhs
      let hi := if op = .gt ∨ op = .ge then lhs else rhs
      let s1 := strictOf op
      match lo, hi with
      | .o lo', .o hi' =>
        if lo' = b0 then (finish3 h true a0 b0 hi' s0 s1).map fun q => (q, none)
        else if hi' = a0 then
          (finish3 h false lo' a0 b0 s1 s0).map fun q => (q, none)
        else if hi' = b0 then .error .twoLowerBounds
        else if lo' = a0 then .error .twoUpperBounds
        else stale
      | _, _ => stale
    else stale
  | _ => stale

/-- Top-level relational construction: indexed operands are rejected
first, then the call is dispatched on the pending slot. -/
def genRel (h : List Node) (env : Env) (n : ℕ) (op : RelOp)
    (lhs rhs : RelOperand) (st : Option RelNode) :
    Except PyErr (RelNode × Option RelNode) :=
  if lhs = .indexed ∨ rhs = .indexed then .error .indexedOperand
  else
    match st with
    | some p => genRelPending h env n op lhs rhs p
    | none => genRelFresh h op lhs rhs

/-- Boolean-context evaluation of a relational expression.  A stale
(un-fixed, non-constant) pending inequality in the slot fails with an
unexpected-boolean-context error; otherwise the truth value is computed
and the pending slot is cleared. -/
def boolEval (h : List Node) (env : Env) (n : ℕ) (st : Option RelNode)
    (r : RelNode) : Except PyErr (Option Bool × Option RelNode) :=
  match st with
  | some p =>
    if relStale h env n p then .error .unexpectedBooleanContext
    else .ok (evalRel h env n r, none)
  | none => .ok (evalRel h env n r, none)

/-! ## Concrete arenas and environments used in the witnesses -/

/-- A small concrete environment: variable 0 has value 5, variable 1 has
value 10, no variable is fixed. -/
def envW : Env :=
  ⟨fun v => if v = 0 then 5 else 10, fun _ => false, fun _ => 1,
   fun _ x => x, fun _ _ => 0⟩

/-- The same environment with every variable fixed. -/
def envWf : Env :=
  ⟨fun v => if v = 0 then 5 else 10, fun _ => true, fun _ => 1,
   fun _ x => x, fun _ _ => 0⟩

/-- A concrete arena: two variables and their binary sum. -/
def hW : List Node :=
  [.varLeaf 0, .varLeaf 1, .interior .sum [.node 0, .node 1]]

/-- The rational number 21/10, i.e. the literal `2.1`. -/
def q21 : ℚ := ⟨21, 10, by decide, by decide⟩

/-- Four variables, the starting arena of the entangled-compression
scenario. -/
def entHeap0 : List Node :=
  [.varLeaf 0, .varLeaf 1, .varLeaf 2, .varLeaf 3]

/-- `e1 = a + b`. -/
def entSum1 : List Node × Operand := addOp entHeap0 (.node 0) (.node 1)

/-- `e1c = compress(e1)`. -/
def entC1 : List Node × Operand := compress entSum1.1 10 entSum1.2

/-- `e2 = c + e1c`, reusing the compressed sum. -/
def entSum2 : List Node × Operand := addOp entC1.1 (.node 2) entC1.2

/-- `e2c = compress(e2)`. -/
def entC2 : List Node × Operand := compress entSum2.1 10 entSum2.2

/-- `e3 = d + e1c`, reusing the compressed sum a second time. -/
def entSum3 : List Node × Operand := addOp entC2.1 (.node 3) entC1.2

/-- `e3c = compress(e3)`. -/
def entC3 : List Node × Operand := compress entSum3.1 10 entSum3.2

/-- `a * a` over a single variable, built by the operator protocol. -/
def mulAA : List Node × Operand := mulOp [.varLeaf 0] (.node 0) (.node 0)

/-- `pow(a*a, 2)`. -/
def powAA2 : List Node × Operand := powOp mulAA.1 mulAA.2 (.num 2)

/-- `pow(a*a, 2.1)`. -/
def powAA21 : List Node × Operand := powOp mulAA.1 mulAA.2 (.num q21)

/-- `a ** a + a` over one variable: the duplicated-variable example. -/
def dupExpr : List Node × Operand :=
  addOp (powOp [.varLeaf 0] (.node 0) (.node 0)).1
    (powOp [.varLeaf 0] (.node 0) (.node 0)).2 (.node 0)

/-- An arena with only parameter leaves and their sum. -/
def hParams : List Node :=
  [.paramLeaf false 0, .paramLeaf true 1, .interior .sum [.node 0, .node 1]]

/-- An arena with an external function call (one variable argument and
one numeric argument) multiplied by another variable. -/
def hExt : List Node :=
  [.varLeaf 0, .varLeaf 1, .interior (.extfn 7) [.node 0, .num 3],
   .interior .prod [.node 2, .node 1]]

/-- Whether the arena contains no variable leaf at all. -/
def noVars (h : List Node) : Bool :=
  h.all fun nd =>
    match nd with
    | .varLeaf _ => false
    | _ => true

/-! ## Basic lemmas about the arena and the fuelled analyses -/

theorem evalOp_interior {h : List Node} {i : ℕ} {k : IKind}
    {args : List Operand} (hi : h[i]? = some (.interior k args))
    (env : Env) (n : ℕ) :
    evalOp h env (n + 1) (.node i)
      = (seqOpt (args.map (evalOp h env n))).bind (applyKind env k) := by
  simp [evalOp, evalStep, hi]

theorem reach_interior {h : List Node} {i : ℕ} {k : IKind}
    {args : List Operand} (hi : h[i]? = some (.interior k args)) (n : ℕ) :
    reach h (n + 1) (.node i) = i :: (args.map (reach h n)).flatten := by
  simp [reach, reachStep, hi]

theorem self_mem_reach (h : List Node) (n : ℕ) (i : ℕ) :
    i ∈ reach h n (.node i) := by
  cases n with
  | zero => simp [reach]
  | succ n => simp [reach, reachStep]

/-- An entry of a well-formed arena is well-formed at its index. -/
theorem wfh_entry {h : List Node} (hw : wfh h = true) {i : ℕ} {nd : Node}
    (hi : h[i]? = some nd) : okNode i nd = true := by
  have hlen : i < h.length := by
    rcases List.getElem?_eq_some.mp hi with ⟨hl, _⟩
    exact hl
  have := List.all_eq_true.mp hw i (List.mem_range.mpr hlen)
  simpa [hi] using this

/-- In a well-formed arena the children of the node at `i` point below `i`. -/
theorem wfh_child_lt {h : List Node} (hw : wfh h = true) {i : ℕ}
    {k : IKind} {args : List Operand}
    (hi : h[i]? = some (.interior k args)) {a : Operand} (ha : a ∈ args) :
    opLt a i = true := by
  have := wfh_entry hw hi
  simp only [okNode, childOps, argsLt, List.all_eq_true] at this
  exact this a ha

theorem opLt_mono {x : Operand} {m m' : ℕ} (hx : opLt x m = true)
    (hm : m ≤ m') : opLt x m' = true := by
  cases x with
  | num c => simp [opLt]
  | node i =>
    simp only [opLt, decide_eq_true_eq] at hx ⊢
    omega

/-- Every index reachable from a bounded operand of a well-formed arena
is itself in bounds. -/
theorem reach_lt {h : List Node} (hw : wfh h = true) :
    ∀ n (x : Operand), opLt x h.length = true →
      ∀ j ∈ reach h n x, j < h.length := by
  intro n
  induction n with
  | zero =>
    intro x hx j hj
    cases x with
    | num c => simp [reach] at hj
    | node i =>
      simp only [reach, List.mem_singleton] at hj
      subst hj
      simpa [opLt] using hx
  | succ n ih =>
    intro x hx j hj
    cases x with
    | num c => simp [reach, reachStep] at hj
    | node i =>
      have hilen : i < h.length := by simpa [opLt] using hx
      simp only [reach, reachStep, List.mem_cons] at hj
      rcases hj with rfl | hj
      · exact hilen
      · revert hj
        cases hnd : h[i]? with
        | none => simp
        | some nd =>
          cases nd with
          | interior k args =>
            intro hj
            rcases List.mem_flatten.mp hj with ⟨l, hl, hjl⟩
            rcases List.mem_map.mp hl with ⟨a, haargs, rfl⟩
            have halt : opLt a i = true := wfh_child_lt hw hnd haargs
            exact ih a (opLt_mono halt (Nat.le_of_lt hilen)) j hjl
          | const c => simp
          | varLeaf v => simp
          | paramLeaf mutb p => simp

/-- Appending to the arena does not change reachability from an operand
whose reachable set is in bounds. -/
theorem reach_append (h t : List Node) :
    ∀ n (x : Operand), (∀ j ∈ reach h n x, j < h.length) →
      reach (h ++ t) n x = reach h n x := by
  intro n
  induction n with
  | zero => intro x _; cases x <;> simp [reach]
  | succ n ih =>
    intro x hx
    cases x with
    | num c => simp [reach, reachStep]
    | node i =>
      have hilen : i < h.length := hx i (self_mem_reach h (n + 1) i)
      have hget : (h ++ t)[i]? = h[i]? := by
        rw [List.getElem?_append]
        simp [hilen]
      simp only [reach, reachStep, hget]
      cases hnd : h[i]? with
      | none => simp
      | some nd =>
        cases nd with
        | interior k args =>
          simp only [List.cons.injEq, true_and]
          apply congrArg
          apply List.map_congr_left
          intro a ha
          apply ih
          intro j hj
          apply hx
          rw [reach_interior hnd]
          exact List.mem_cons_of_mem i
            (List.mem_flatten.mpr ⟨reach h n a, List.mem_map_of_mem _ ha, hj⟩)
        | const c => simp
        | varLeaf v => simp
        | paramLeaf mutb p => simp

/-- Appending to the arena does not change evaluation of an operand whose
reachable set is in bounds. -/
theorem eval_append (h t : List Node) (env : Env) :
    ∀ n (x : Operand), (∀ j ∈ reach h n x, j < h.length) →
      evalOp (h ++ t) env n x = evalOp h env n x := by
  intro n
  induction n with
  | zero => intro x _; cases x <;> simp [evalOp]
  | succ n ih =>
    intro x hx
    cases x with
    | num c => simp [evalOp, evalStep]
    | node i =>
      have hilen : i < h.length := hx i (self_mem_reach h (n + 1) i)
      have hget : (h ++ t)[i]? = h[i]? := by
        rw [List.getElem?_append]
        simp [hilen]
      simp only [evalOp, evalStep, hget]
      cases hnd : h[i]? with
      | none => simp
      | some nd =>
        cases nd with
        | interior k args =>
          simp only []
          apply congrArg (fun o => Option.bind o (applyKind env k))
          apply congrArg
          apply List.map_congr_left
          intro a ha
          apply ih
          intro j hj
          apply hx
          rw [reach_interior hnd]
          exact List.mem_cons_of_mem i
            (List.mem_flatten.mpr ⟨reach h n a, List.mem_map_of_mem _ ha, hj⟩)
        | const c => simp
        | varLeaf v => simp
        | paramLeaf mutb p => simp

/-- Overwriting an arena entry that is not reachable from an operand does
not change reachability from it. -/
theorem reach_set (h : List Node) (j0 : ℕ) (v : Node) :
    ∀ n (x : Operand), j0 ∉ reach h n x →
      reach (h.set j0 v) n x = reach h n x := by
  intro n
  induction n with
  | zero => intro x _; cases x <;> simp [reach]
  | succ n ih =>
    intro x hx
    cases x with
    | num c => simp [reach, reachStep]
    | node i =>
      have hne : j0 ≠ i := by
        intro heq
        exact hx (heq ▸ self_mem_reach h (n + 1) i)
      have hget : (h.set j0 v)[i]? = h[i]? := List.getElem?_set_ne hne
      simp only [reach, reachStep, hget]
      cases hnd : h[i]? with
      | none => simp
      | some nd =>
        cases nd with
        | interior k args =>
          simp only [List.cons.injEq, true_and]
          apply congrArg
          apply List.map_congr_left
          intro a ha
          apply ih
          intro hj
          apply hx
          rw [reach_interior hnd]
          exact List.mem_cons_of_mem i
            (List.mem_flatten.mpr ⟨reach h n a, List.mem_map_of_mem _ ha, hj⟩)
        | const c => simp
        | varLeaf v => simp
        | paramLeaf mutb p => simp

/-- Overwriting an arena entry that is not reachable from an operand does
not change its evaluation. -/
theorem eval_set (h : List Node) (j0 : ℕ) (v : Node) (env : Env) :
    ∀ n (x : Operand), j0 ∉ reach h n x →
      evalOp (h.set j0 v) env n x = evalOp h env n x := by
  intro n
  induction n with
  | zero => intro x _; cases x <;> simp [evalOp]
  | succ n ih =>
    intro x hx
    cases x with
    | num c => simp [evalOp, evalStep]
    | node i =>
      have hne : j0 ≠ i := by
        intro heq
        exact hx (heq ▸ self_mem_reach h (n + 1) i)
      have hget : (h.set j0 v)[i]? = h[i]? := List.getElem?_set_ne hne
      simp only [evalOp, evalStep, hget]
      cases hnd : h[i]? with
      | none => simp
      | some nd =>
        cases nd with
        | interior k args =>
          simp only []
          apply congrArg (fun o => Option.bind o (applyKind env k))
          apply congrArg
          apply List.map_congr_left
          intro a ha
          apply ih
          intro hj
          apply hx
          rw [reach_interior hnd]
          exact List.mem_cons_of_mem i
            (List.mem_flatten.mpr ⟨reach h n a, List.mem_map_of_mem _ ha, hj⟩)
        | const c => simp
        | varLeaf v => simp
        | paramLeaf mutb p => simp

/-! ## Correctness of cloning -/

theorem argsLt_mono {as : List Operand} {m m' : ℕ}
    (ha : argsLt as m = true) (hm : m ≤ m') : argsLt as m' = true := by
  simp only [argsLt, List.all_eq_true] at ha ⊢
  exact fun a haa => opLt_mono (ha a haa) hm

theorem isLeafAt_append {g : List Node} (t : List Node) {j : ℕ}
    (hj : j < g.length) : isLeafAt (g ++ t) j = isLeafAt g j := by
  have : (g ++ t)[j]? = g[j]? := by
    rw [List.getElem?_append]
    simp [hj]
  simp [isLeafAt, this]

/-- Appending one node whose children are in bounds preserves arena
well-formedness. -/
theorem wfh_append_one {g : List Node} {nd : Node} (hw : wfh g = true)
    (hnd : argsLt (childOps nd) g.length = true) :
    wfh (g ++ [nd]) = true := by
  simp only [wfh, List.all_eq_true, List.mem_range] at hw ⊢
  intro i hi
  simp only [List.length_append, List.length_singleton] at hi
  rcases Nat.lt_or_ge i g.length with hlt | hge
  · have : (g ++ [nd])[i]? = g[i]? := by
      rw [List.getElem?_append]
      simp [hlt]
    rw [this]
    exact hw i hlt
  · have hieq : i = g.length := by omega
    subst hieq
    rw [List.getElem?_concat_length]
    simpa [okNode] using hnd

/-- The reachable set of a leaf entry is just the entry itself. -/
theorem reach_leafAt {h : List Node} {i : ℕ} (hl : isLeafAt h i = true)
    (m : ℕ) : reach h m (.node i) = [i] := by
  cases m with
  | zero => simp [reach]
  | succ m =>
    simp only [isLeafAt] at hl
    cases hnd : h[i]? with
    | none => rw [hnd] at hl; exact absurd hl (by simp)
    | some nd =>
      rw [hnd] at hl
      cases nd with
      | interior k args => simp [isLeafNode] at hl
      | const c => simp [reach, reachStep, hnd]
      | varLeaf v => simp [reach, reachStep, hnd]
      | paramLeaf mutb p => simp [reach, reachStep, hnd]

/-- The bundle of invariants of `cloneArgs` at a given fuel: the arena
only grows; well-formedness and operand bounds are preserved; the cloned
operands evaluate exactly like the originals did in the original arena
(for every environment and fuel); and any pre-existing index reachable
from a cloned operand is a leaf entry (interior nodes are duplicated,
only leaves are shared). -/
def CloneArgsProp (n : ℕ) : Prop :=
  ∀ (h : List Node) (as : List Operand), wfh h = true →
    argsLt as h.length = true → argsLt as n = true →
    (∃ t, (cloneArgs n h as).1 = h ++ t) ∧
    wfh (cloneArgs n h as).1 = true ∧
    argsLt (cloneArgs n h as).2 (cloneArgs n h as).1.length = true ∧
    ((cloneArgs n h as).2.length = as.length) ∧
    (∀ env m, (cloneArgs n h as).2.map (evalOp (cloneArgs n h as).1 env m)
        = as.map (evalOp h env m)) ∧
    (∀ m j, j ∈ ((cloneArgs n h as).2.map (reach (cloneArgs n h as).1 m)).flatten →
        j < h.length → isLeafAt h j = true)

/-- Cloning a leaf reference returns the same reference and does not
touch the arena: leaves are shared by identity. -/
theorem cloneOp_leaf {n : ℕ} {h : List Node} {i : ℕ} {nd : Node}
    (hnd : h[i]? = some nd) (hl : isLeafNode nd = true) :
    cloneOp n h (.node i) = (h, .node i) := by
  cases nd with
  | interior k args => simp [isLeafNode] at hl
  | const c => simp [cloneOp, cloneStep, hnd]
  | varLeaf v => simp [cloneOp, cloneStep, hnd]
  | paramLeaf mutb p => simp [cloneOp, cloneStep, hnd]

/-- The `cloneOp` analogue of `CloneArgsProp`, assuming it for the child
fuel. -/
theorem cloneOp_spec {n : ℕ} (IH : CloneArgsProp n) (h : List Node)
    (x : Operand) (hw : wfh h = true) (hxh : opLt x h.length = true)
    (hxn : opLt x (n + 1) = true) :
    (∃ t, (cloneOp n h x).1 = h ++ t) ∧
    wfh (cloneOp n h x).1 = true ∧
    opLt (cloneOp n h x).2 (cloneOp n h x).1.length = true ∧
    (∀ env m, evalOp (cloneOp n h x).1 env m (cloneOp n h x).2
        = evalOp h env m x) ∧
    (∀ m j, j ∈ reach (cloneOp n h x).1 m (cloneOp n h x).2 →
        j < h.length → isLeafAt h j = true) := by
  cases x with
  | num c =>
    have hc : cloneOp n h (.num c) = (h, .num c) := by
      simp [cloneOp, cloneStep]
    rw [hc]
    refine ⟨⟨[], by simp⟩, hw, by simp [opLt], fun env m => rfl, ?_⟩
    intro m j hj
    cases m <;> simp [reach, reachStep] at hj
  | node i =>
    have hilen : i < h.length := by simpa [opLt] using hxh
    have hin : i < n + 1 := by simpa [opLt] using hxn
    cases hnd : h[i]? with
    | none =>
      exfalso
      have := List.getElem?_eq_none_iff.mp hnd
      omega
    | some nd =>
      cases nd with
      | const c =>
        have hc := cloneOp_leaf (n := n) hnd (by simp [isLeafNode])
        rw [hc]
        refine ⟨⟨[], by simp⟩, hw, hxh, fun env m => rfl, ?_⟩
        intro m j hj _
        rw [reach_leafAt (by simp [isLeafAt, hnd, isLeafNode]) m] at hj
        simp only [List.mem_singleton] at hj
        subst hj
        simp [isLeafAt, hnd, isLeafNode]
      | varLeaf v =>
        have hc := cloneOp_leaf (n := n) hnd (by simp [isLeafNode])
        rw [hc]
        refine ⟨⟨[], by simp⟩, hw, hxh, fun env m => rfl, ?_⟩
        intro m j hj _
        rw [reach_leafAt (by simp [isLeafAt, hnd, isLeafNode]) m] at hj
        simp only [List.mem_singleton] at hj
        subst hj
        simp [isLeafAt, hnd, isLeafNode]
      | paramLeaf mutb p =>
        have hc := cloneOp_leaf (n := n) hnd (by simp [isLeafNode])
        rw [hc]
        refine ⟨⟨[], by simp⟩, hw, hxh, fun env m => rfl, ?_⟩
        intro m j hj _
        rw [reach_leafAt (by simp [isLeafAt, hnd, isLeafNode]) m] at hj
        simp only [List.mem_singleton] at hj
        subst hj
        simp [isLeafAt, hnd, isLeafNode]
      | interior k args =>
        have hargsi : argsLt args i = true := by
          have := wfh_entry hw hnd
          simpa [okNode, childOps] using this
        have hargsh : argsLt args h.length = true :=
          argsLt_mono hargsi (Nat.le_of_lt hilen)
        have hargsn : argsLt args n = true :=
          argsLt_mono hargsi (Nat.lt_succ_iff.mp hin)
        obtain ⟨⟨t1, ht1⟩, hwfs, hbnds, _hlens, hevals, hreachs⟩ :=
          IH h args hw hargsh hargsn
        have hc : cloneOp n h (.node i)
            = ((cloneArgs n h args).1
                ++ [.interior k (cloneArgs n h args).2],
               .node (cloneArgs n h args).1.length) := by
          simp [cloneOp, cloneStep, hnd]
        set g := (cloneArgs n h args).1 with hg
        set as' := (cloneArgs n h args).2 with has'
        rw [hc]
        have hglen : h.length ≤ g.length := by
          rw [ht1]; simp
        have hnew : (g ++ [Node.interior k as'])[g.length]?
            = some (.interior k as') := List.getElem?_concat_length _ _
        have hbnd' : ∀ a ∈ as', opLt a g.length = true := by
          intro a ha
          exact List.all_eq_true.mp hbnds a ha
        refine ⟨⟨t1 ++ [.interior k as'], by rw [ht1, List.append_assoc]⟩,
          wfh_append_one hwfs (by simpa [childOps] using hbnds), ?_, ?_, ?_⟩
        · simp [opLt]
        · intro env m
          cases m with
          | zero => rfl
          | succ m =>
            rw [evalOp_interior hnew env m, evalOp_interior hnd env m]
            have hmap : as'.map (evalOp (g ++ [Node.interior k as']) env m)
                = as'.map (evalOp g env m) := by
              apply List.map_congr_left
              intro a ha
              exact eval_append g _ env m a (reach_lt hwfs m a (hbnd' a ha))
            rw [hmap, hevals env m]
        · intro m j hj hjh
          cases m with
          | zero =>
            simp only [reach, List.mem_singleton] at hj
            omega
          | succ m =>
            rw [reach_interior hnew] at hj
            rcases List.mem_cons.mp hj with rfl | hj
            · omega
            · rcases List.mem_flatten.mp hj with ⟨l, hl, hjl⟩
              rcases List.mem_map.mp hl with ⟨a, haas, rfl⟩
              rw [reach_append g _ m a (reach_lt hwfs m a (hbnd' a haas))]
                at hjl
              exact hreachs m j
                (List.mem_flatten.mpr
                  ⟨reach g m a, List.mem_map_of_mem _ haas, hjl⟩) hjh

/-- The clone invariants hold at every fuel. -/
theorem cloneArgs_spec : ∀ n, CloneArgsProp n := by
  intro n
  induction n with
  | zero =>
    intro h as hw hbound hfuel
    have hnum : ∀ a ∈ as, ∀ m, reach h m a = [] := by
      intro a ha m
      have := List.all_eq_true.mp hfuel a ha
      cases a with
      | num c => cases m <;> simp [reach, reachStep]
      | node i => simp [opLt] at this
    refine ⟨⟨[], by simp [cloneArgs]⟩, by simpa [cloneArgs] using hw,
      by simpa [cloneArgs] using hbound, by simp [cloneArgs],
      fun env m => by simp [cloneArgs], ?_⟩
    intro m j hj _
    exfalso
    simp only [cloneArgs] at hj
    rcases List.mem_flatten.mp hj with ⟨l, hl, hjl⟩
    rcases List.mem_map.mp hl with ⟨a, ha, rfl⟩
    rw [hnum a ha m] at hjl
    simp at hjl
  | succ n IH =>
    intro h as hw hbound hfuel
    induction as generalizing h with
    | nil =>
      refine ⟨⟨[], by simp [cloneArgs, cloneListWith]⟩,
        by simpa [cloneArgs, cloneListWith] using hw,
        by simp [cloneArgs, cloneListWith, argsLt],
        by simp [cloneArgs, cloneListWith],
        fun env m => by simp [cloneArgs, cloneListWith], ?_⟩
      intro m j hj _
      simp [cloneArgs, cloneListWith] at hj
    | cons x xs ihl =>
      have hxh : opLt x h.length = true := by
        have := List.all_eq_true.mp hbound
        exact this x (by simp)
      have hxn : opLt x (n + 1) = true := by
        have := List.all_eq_true.mp hfuel
        exact this x (by simp)
      have hxsh : argsLt xs h.length = true := by
        simp only [argsLt, List.all_eq_true] at hbound ⊢
        exact fun a ha => hbound a (by simp [ha])
      have hxsn : argsLt xs (n + 1) = true := by
        simp only [argsLt, List.all_eq_true] at hfuel ⊢
        exact fun a ha => hfuel a (by simp [ha])
      obtain ⟨⟨t1, ht1⟩, hwp, hopl, hevp, hreachp⟩ :=
        cloneOp_spec IH h x hw hxh hxn
      have hlen1 : h.length ≤ (cloneOp n h x).1.length := by
        rw [ht1]; simp
      obtain ⟨⟨t2, ht2⟩, hwq, hbq, hlq, hevq, hreachq⟩ :=
        ihl (cloneOp n h x).1 hwp (argsLt_mono hxsh hlen1) hxsn
      have hlen2 : (cloneOp n h x).1.length
          ≤ (cloneArgs (n + 1) (cloneOp n h x).1 xs).1.length := by
        rw [ht2]; simp
      have hc : cloneArgs (n + 1) h (x :: xs)
          = ((cloneArgs (n + 1) (cloneOp n h x).1 xs).1,
             (cloneOp n h x).2 :: (cloneArgs (n + 1) (cloneOp n h x).1 xs).2) :=
        rfl
      rw [hc]
      refine ⟨⟨t1 ++ t2, by rw [ht2, ht1, List.append_assoc]⟩, hwq, ?_, ?_,
        ?_, ?_⟩
      · simp only [argsLt, List.all_cons, Bool.and_eq_true]
        exact ⟨opLt_mono hopl hlen2, hbq⟩
      · simp [hlq]
      · intro env m
        simp only [List.map_cons]
        have hhead : evalOp (cloneArgs (n + 1) (cloneOp n h x).1 xs).1 env m
            (cloneOp n h x).2 = evalOp h env m x := by
          rw [ht2,
            eval_append _ _ env m _ (reach_lt hwp m _ hopl), hevp]
        have htail : (cloneArgs (n + 1) (cloneOp n h x).1 xs).2.map
              (evalOp (cloneArgs (n + 1) (cloneOp n h x).1 xs).1 env m)
            = xs.map (evalOp h env m) := by
          rw [hevq env m]
          apply List.map_congr_left
          intro a ha
          rw [ht1, eval_append _ _ env m _
            (reach_lt hw m a (List.all_eq_true.mp hxsh a ha))]
        rw [hhead, htail]
      · intro m j hj hjh
        simp only [List.map_cons, List.flatten_cons, List.mem_append] at hj
        rcases hj with hj | hj
        · rw [ht2, reach_append _ _ m _ (reach_lt hwp m _ hopl)] at hj
          exact hreachp m j hj hjh
        · have hleafp := hreachq m j hj (Nat.lt_of_lt_of_le hjh hlen1)
          rw [ht1, isLeafAt_append t1 hjh] at hleafp
          exact hleafp

/-- Mutating (extending in place) an arena entry that is not reachable
from an operand does not change the operand's evaluation. -/
theorem eval_extendSum_notReach (h' : List Node) (env : Env) (j : ℕ)
    (t : Operand) (m : ℕ) (y : Operand) (hj : j ∉ reach h' m y) :
    evalOp (extendSum h' j t) env m y = evalOp h' env m y := by
  unfold extendSum
  cases hnd : h'[j]? with
  | none => rfl
  | some nd =>
    cases nd with
    | interior k args => exact eval_set h' j _ env m y hj
    | const c => rfl
    | varLeaf v => rfl
    | paramLeaf mutb p => rfl

/-! ## Structure of compression -/

theorem sumArgsOf_inv {h : List Node} {x : Operand} {args : List Operand}
    (hs : sumArgsOf h x = some args) :
    ∃ i k, x = .node i ∧ h[i]? = some (.interior k args) := by
  cases x with
  | num c => simp [sumArgsOf] at hs
  | node i =>
    refine ⟨i, ?_⟩
    revert hs
    cases hnd : h[i]? with
    | none => simp [sumArgsOf, hnd]
    | some nd =>
      cases nd with
      | interior k as =>
        cases k <;> simp only [sumArgsOf, hnd] <;> intro hs <;>
          simp_all
      | const c => simp [sumArgsOf, hnd]
      | varLeaf v => simp [sumArgsOf, hnd]
      | paramLeaf mutb p => simp [sumArgsOf, hnd]

/-- Every term collected by sum flattening is a non-sum, non-numeric
operand (numeric leaves are accumulated into the constant, nested sums
are flattened away). -/
theorem flatOne_terms {h : List Node} (hw : wfh h = true) :
    ∀ n (x : Operand), (sumArgsOf h x).isSome → opLt x n = true →
      ∀ tm ∈ (flatOne h n x).2,
        sumArgsOf h tm = none ∧ isNumOp tm = false := by
  intro n
  induction n with
  | zero =>
    intro x hsum hx tm htm
    rcases Option.isSome_iff_exists.mp hsum with ⟨args, hs⟩
    rcases sumArgsOf_inv hs with ⟨i, k, rfl, hnd⟩
    simp [opLt] at hx
  | succ n ih =>
    intro x hsum hx tm htm
    rcases Option.isSome_iff_exists.mp hsum with ⟨args, hs⟩
    rcases sumArgsOf_inv hs with ⟨i, k, rfl, hnd⟩
    have hin : i < n + 1 := by simpa [opLt] using hx
    have hstep : flatOne h (n + 1) (.node i) = flatStep h (flatOne h n) (.node i) := rfl
    rw [hstep] at htm
    simp only [flatStep, hs] at htm
    rcases List.mem_append.mp htm with htm | htm
    · rcases List.mem_flatten.mp htm with ⟨l, hl, htl⟩
      rcases List.mem_map.mp hl with ⟨pr, hpr, rfl⟩
      rcases List.mem_map.mp hpr with ⟨a, haf, rfl⟩
      rcases List.mem_filter.mp haf with ⟨haargs, hasum⟩
      have halt : opLt a i = true := wfh_child_lt hw hnd haargs
      have han : opLt a n = true := by
        cases a with
        | num c => simp [opLt]
        | node j =>
          simp only [opLt, decide_eq_true_eq] at halt ⊢
          omega
      exact ih a hasum han tm htl
    · rcases List.mem_filter.mp htm with ⟨htr, hnum⟩
      rcases List.mem_filter.mp htr with ⟨_, hisnone⟩
      refine ⟨Option.isNone_iff_eq_none.mp hisnone, ?_⟩
      simpa using hnum

/-! ## Claim theorems -/

/-- C1.  For every expression of a well-formed arena, `clone` evaluates
to the same value as the original at every fuel (1); leaf
variable/parameter/constant nodes are shared by identity — cloning a
leaf returns the very same arena index and allocates nothing (2); an
interior root is duplicated into a fresh arena cell, distinct from the
original node (3); subsequently extending the original tree in place
leaves the clone's evaluation and its root entry (child list) unchanged
(4); and extending the clone in place leaves the original's evaluation
unchanged (5). -/
theorem claim_C1 (h : List Node) (env : Env) (n : ℕ) (x : Operand)
    (hw : wfh h = true) (hxh : opLt x h.length = true)
    (hxn : opLt x (n + 1) = true) :
    (∀ m, evalOp (cloneOp n h x).1 env m (cloneOp n h x).2
        = evalOp h env m x) ∧
    (∀ i nd, x = .node i → h[i]? = some nd → isLeafNode nd = true →
      cloneOp n h x = (h, x)) ∧
    (∀ i k args, x = .node i → h[i]? = some (.interior k args) →
      ∃ r, (cloneOp n h x).2 = .node r ∧ h.length ≤ r ∧ r ≠ i) ∧
    (∀ i t m, x = .node i → isLeafAt h i = false →
      evalOp (extendSum (cloneOp n h x).1 i t) env m (cloneOp n h x).2
          = evalOp h env m x) ∧
    (∀ i t r, x = .node i → h.length ≤ r →
      (extendSum (cloneOp n h x).1 i t)[r]? = (cloneOp n h x).1[r]?) ∧
    (∀ r t m, h.length ≤ r →
      evalOp (extendSum (cloneOp n h x).1 r t) env m x = evalOp h env m x) := by
  obtain ⟨⟨t1, ht1⟩, hwp, hopl, hevp, hreachp⟩ :=
    cloneOp_spec (cloneArgs_spec n) h x hw hxh hxn
  have hlen1 : h.length ≤ (cloneOp n h x).1.length := by
    rw [ht1]; simp
  refine ⟨fun m => hevp env m, ?_, ?_, ?_, ?_, ?_⟩
  · intro i nd hx hnd hleaf
    subst hx
    exact cloneOp_leaf hnd hleaf
  · intro i k args hx hnd
    subst hx
    have hargsi : argsLt args i = true := by
      have := wfh_entry hw hnd
      simpa [okNode, childOps] using this
    have hilen : i < h.length := by simpa [opLt] using hxh
    have hin : i < n + 1 := by simpa [opLt] using hxn
    obtain ⟨⟨tg, htg⟩, _, _, _, _, _⟩ :=
      cloneArgs_spec n h args hw
        (argsLt_mono hargsi (Nat.le_of_lt hilen))
        (argsLt_mono hargsi (Nat.lt_succ_iff.mp hin))
    refine ⟨(cloneArgs n h args).1.length, ?_, ?_, ?_⟩
    · simp [cloneOp, cloneStep, hnd]
    · rw [htg]; simp
    · rw [htg]; simp only [List.length_append]; omega
  · intro i t m hx hleaf
    subst hx
    have hilen : i < h.length := by simpa [opLt] using hxh
    have hnotreach : i ∉ reach (cloneOp n h (.node i)).1 m
        (cloneOp n h (.node i)).2 := by
      intro hmem
      have := hreachp m i hmem hilen
      rw [this] at hleaf
      exact absurd hleaf (by simp)
    rw [eval_extendSum_notReach _ env i t m _ hnotreach]
    exact hevp env m
  · intro i t r hx hr
    subst hx
    have hilen : i < h.length := by simpa [opLt] using hxh
    unfold extendSum
    cases hnd : (cloneOp n h (.node i)).1[i]? with
    | none => rfl
    | some nd =>
      cases nd with
      | interior k args =>
        exact List.getElem?_set_ne (by omega)
      | const c => rfl
      | varLeaf v => rfl
      | paramLeaf mutb p => rfl
  · intro r t m hr
    have hreachx : ∀ j ∈ reach h m x, j < h.length := reach_lt hw m x hxh
    have hrw : reach (cloneOp n h x).1 m x = reach h m x := by
      rw [ht1]
      exact reach_append h t1 m x hreachx
    have hnotreach : r ∉ reach (cloneOp n h x).1 m x := by
      rw [hrw]
      intro hmem
      have := hreachx r hmem
      omega
    rw [eval_extendSum_notReach _ env r t m _ hnotreach, ht1,
      eval_append h t1 env m x hreachx]

/-- Witness for C1: cloning the sum of two variables, then extending the
original in place, at concrete inputs. -/
theorem claim_C1_witness :
    wfh hW = true ∧ opLt (.node 2) hW.length = true ∧
    evalOp (cloneOp 3 hW (.node 2)).1 envW 9 (cloneOp 3 hW (.node 2)).2
      = evalOp hW envW 9 (.node 2) ∧
    evalOp (extendSum (cloneOp 3 hW (.node 2)).1 2 (.node 1)) envW 9
        (cloneOp 3 hW (.node 2)).2
      = evalOp hW envW 9 (.node 2) ∧
    evalOp hW envW 9 (.node 2) = some 15 :=
  ⟨by decide, by decide,
   (claim_C1 hW envW 3 (.node 2) (by decide) (by decide) (by decide)).1 9,
   (claim_C1 hW envW 3 (.node 2) (by decide) (by decide)
       (by decide)).2.2.2.1 2 (.node 1) 9 rfl (by decide),
   by norm_num [hW, envW, evalOp, evalStep, seqOpt, applyKind]⟩

/-- C2.  Compression never mutates its input: every pre-existing arena
entry is unchanged (1), so every pre-existing reference keeps its child
count (2) and evaluates as before (3); a non-sum operand is returned
unchanged (4); and for a sum input the result is one freshly appended
compressed-sum node whose argument 0 is the accumulated numeric constant
and whose remaining children are all non-sum, non-numeric terms (5). -/
theorem claim_C2 (h : List Node) (env : Env) (n : ℕ) (x : Operand)
    (hw : wfh h = true) :
    (∀ j, j < h.length → (compress h n x).1[j]? = h[j]?) ∧
    (∀ y, opLt y h.length = true →
      nArgsOf (compress h n x).1 y = nArgsOf h y) ∧
    (∀ y m, opLt y h.length = true →
      evalOp (compress h n x).1 env m y = evalOp h env m y) ∧
    (sumArgsOf h x = none → compress h n x = (h, x)) ∧
    (∀ args0, sumArgsOf h x = some args0 → opLt x n = true →
      (compress h n x).2 = .node h.length ∧
      (compress h n x).1[h.length]?
        = some (.interior .csum
            (.num (flatOne h n x).1 :: (flatOne h n x).2)) ∧
      ∀ tm ∈ (flatOne h n x).2,
        sumArgsOf h tm = none ∧ isNumOp tm = false) := by
  have hext : ∃ t, (compress h n x).1 = h ++ t := by
    cases hs : sumArgsOf h x with
    | none => exact ⟨[], by simp [compress, hs]⟩
    | some args =>
      exact ⟨[.interior .csum (.num (flatOne h n x).1 :: (flatOne h n x).2)],
        by simp [compress, hs]⟩
  obtain ⟨t, ht⟩ := hext
  have hpre : ∀ j, j < h.length → (compress h n x).1[j]? = h[j]? := by
    intro j hj
    rw [ht, List.getElem?_append]
    simp [hj]
  refine ⟨hpre, ?_, ?_, ?_, ?_⟩
  · intro y hy
    cases y with
    | num c => simp [nArgsOf]
    | node i =>
      have hi : i < h.length := by simpa [opLt] using hy
      simp [nArgsOf, hpre i hi]
  · intro y m hy
    rw [ht]
    exact eval_append h t env m y (reach_lt hw m y hy)
  · intro hs
    simp [compress, hs]
  · intro args0 hs hxn
    refine ⟨by simp [compress, hs], ?_, ?_⟩
    · have : (compress h n x).1
          = h ++ [.interior .csum
              (.num (flatOne h n x).1 :: (flatOne h n x).2)] := by
        simp [compress, hs]
      rw [this, List.getElem?_concat_length]
    · exact flatOne_terms hw n x (by simp [hs]) hxn

/-- Witness for C2: the entangled scenario — a compressed sum reused as
an operand of two different larger sums keeps its 3 children and its
value while both compressed results have 4 children. -/
theorem claim_C2_witness :
    wfh entSum3.1 = true ∧ opLt entC1.2 entSum3.1.length = true ∧
    nArgsOf entC3.1 entC1.2 = nArgsOf entSum3.1 entC1.2 ∧
    evalOp entC3.1 envW 9 entC1.2 = evalOp entSum3.1 envW 9 entC1.2 ∧
    nArgsOf entC3.1 entC1.2 = 3 ∧ nArgsOf entC3.1 entC2.2 = 4 ∧
    nArgsOf entC3.1 entC3.2 = 4 :=
  ⟨by decide, by decide,
   (claim_C2 entSum3.1 envW 10 entSum3.2 (by decide)).2.1 entC1.2 (by decide),
   (claim_C2 entSum3.1 envW 10 entSum3.2 (by decide)).2.2.1 entC1.2 9
     (by decide),
   by norm_num [entC3, entSum3, entC2, entSum2, entC1, entSum1, entHeap0,
     compress, flatOne, flatStep, sumArgsOf, addOp, asNum, numOf, isNumOp,
     nArgsOf, childOps, List.filterMap_cons],
   by norm_num [entC3, entSum3, entC2, entSum2, entC1, entSum1, entHeap0,
     compress, flatOne, flatStep, sumArgsOf, addOp, asNum, numOf, isNumOp,
     nArgsOf, childOps, List.filterMap_cons],
   by norm_num [entC3, entSum3, entC2, entSum2, entC1, entSum1, entHeap0,
     compress, flatOne, flatStep, sumArgsOf, addOp, asNum, numOf, isNumOp,
     nArgsOf, childOps, List.filterMap_cons]⟩

/-- C9.  Adding a raw zero on either side returns the other operand
itself: the arena is untouched (no node is constructed) and the very
same operand is returned. -/
theorem claim_C9 (h : List Node) (x : Operand) :
    addOp h x (.num 0) = (h, x) ∧ addOp h (.num 0) x = (h, x) := by
  constructor
  · cases x <;> simp [addOp]
  · cases x with
    | num b =>
      by_cases hb : b = 0
      · subst hb; simp [addOp]
      · simp [addOp, asNum, hb]
    | node i => simp [addOp]

/-- C4.  Division: `x / 1` returns `x` itself with the arena untouched
(1); `1 / x` for non-numeric `x` returns a fresh reciprocal node whose
single child is `x` (2); `0 / x` returns the raw number `0` (not a node)
whenever the divisor is not a literal zero (3); and `x / 0` — division
by a literal zero — fails at construction with an error of the
`ZeroDivisionError` class (4). -/
theorem claim_C4 (h : List Node) (x y : Operand) :
    (asNum h y = some 1 → divOp h x y = .ok (h, x)) ∧
    (asNum h y = none → divOp h (.num 1) y
        = .ok (h ++ [.interior .recip [y]], .node h.length)) ∧
    (asNum h y ≠ some 0 → divOp h (.num 0) y = .ok (h, .num 0)) ∧
    (asNum h y = some 0 → divOp h x y = .error .zeroDivision ∧
      pyClass .zeroDivision = .zeroDivisionError) := by
  refine ⟨?_, ?_, ?_, ?_⟩
  · intro hy
    simp [divOp, hy]
  · intro hy
    simp only [divOp]
    rw [hy]
    simp [asNum]
  · intro hy
    cases hb : asNum h y with
    | none =>
      simp only [divOp]
      rw [hb]
      simp [asNum]
    | some b =>
      have hbne : b ≠ 0 := by
        intro h0
        exact hy (by rw [hb, h0])
      by_cases hb1 : b = 1
      · subst hb1
        simp only [divOp]
        rw [hb]
        simp
      · simp only [divOp]
        rw [hb]
        simp [hbne, hb1, asNum]
  · intro hy
    exact ⟨by simp [divOp, hy], rfl⟩

/-- Witness for C4 at the variable arena: division by one, a reciprocal
of a variable, a zero dividend and a literal-zero divisor. -/
theorem claim_C4_witness :
    asNum hW (.num 1) = some 1 ∧ asNum hW (.node 0) = none ∧
    divOp hW (.node 0) (.num 1) = .ok (hW, .node 0) ∧
    divOp hW (.num 1) (.node 0)
      = .ok (hW ++ [.interior .recip [.node 0]], .node hW.length) ∧
    divOp hW (.num 0) (.node 0) = .ok (hW, .num 0) ∧
    divOp hW (.node 0) (.num 0) = .error .zeroDivision :=
  ⟨by decide, by decide,
   (claim_C4 hW (.node 0) (.num 1)).1 (by decide),
   (claim_C4 hW (.num 1) (.node 0)).2.1 (by decide),
   (claim_C4 hW (.num 0) (.node 0)).2.2.1 (by decide),
   ((claim_C4 hW (.node 0) (.num 0)).2.2.2 (by decide)).1⟩

/-- C3.  Chaining `a < b < c` through the pending slot builds one
3-child inequality with children `(a, b, c)` and strictness
`[true, true]` (i); `0 ≤ x ≤ 0` — equal numeric bounds with equal
non-strict flags — collapses to a 2-child equality (ii); and equal
numeric bounds with mismatched strictness (`0 < x ≤ 0` and
`0 ≤ x < 0`) fail with the identical-bounds clarity error, which
belongs to the construction-error taxonomy (iii). -/
theorem claim_C3 (h : List Node) (env : Env) (n : ℕ) (a0 b0 c0 x0 : Operand)
    (hnc : (asNum h a0).isNone ∨ (asNum h c0).isNone
        ∨ asNum h a0 ≠ asNum h c0) :
    (genRel h env n .lt (.o a0) (.o b0) none
        = .ok (.ineq [a0, b0] [true], some (.ineq [a0, b0] [true])) ∧
     genRel h env n .lt (.o b0) (.o c0) (some (.ineq [a0, b0] [true]))
        = .ok (.ineq [a0, b0, c0] [true, true], none)) ∧
    (genRel h env n .le (.o (.num 0)) (.o x0) none
        = .ok (.ineq [.num 0, x0] [false], some (.ineq [.num 0, x0] [false])) ∧
     genRel h env n .le (.o x0) (.o (.num 0))
          (some (.ineq [.num 0, x0] [false]))
        = .ok (.eqn x0 (.num 0), none)) ∧
    (genRel h env n .le (.o x0) (.o (.num 0))
          (some (.ineq [.num 0, x0] [true]))
        = .error .mismatchedStrictness ∧
     genRel h env n .lt (.o x0) (.o (.num 0))
          (some (.ineq [.num 0, x0] [false]))
        = .error .mismatchedStrictness ∧
     isConstructionError .mismatchedStrictness = true ∧
     pyClass .mismatchedStrictness = .typeError) := by
  refine ⟨⟨?_, ?_⟩, ⟨?_, ?_⟩, ?_, ?_, rfl, rfl⟩
  · simp [genRel, genRelFresh, strictOf]
  · have hfin : finish3 h true a0 b0 c0 true true
        = .ok (.ineq [a0, b0, c0] [true, true]) := by
      rcases hnc with hnc | hnc | hnc
      · rw [Option.isNone_iff_eq_none] at hnc
        simp [finish3, hnc]
      · rw [Option.isNone_iff_eq_none] at hnc
        cases ha : asNum h a0 <;> simp [finish3, ha, hnc]
      · cases ha : asNum h a0 with
        | none => simp [finish3, ha]
        | some v =>
          cases hc : asNum h c0 with
          | none => simp [finish3, ha, hc]
          | some w =>
            have : v ≠ w := by
              intro hvw
              exact hnc (by rw [ha, hc, hvw])
            simp [finish3, ha, hc, this]
    simp [genRel, genRelPending, isIneqOp, strictOf, hfin, Except.map]
  · simp [genRel, genRelFresh, strictOf]
  · simp [genRel, genRelPending, finish3, asNum, isIneqOp, strictOf, Except.map]
  · simp [genRel, genRelPending, finish3, asNum, isIneqOp, strictOf, Except.map]
  · simp [genRel, genRelPending, finish3, asNum, isIneqOp, strictOf, Except.map]

/-- Witness for C3 at the spec's concrete instance `1 < 2 < 3` and a
variable `x`. -/
theorem claim_C3_witness :
    ((asNum hW (.num 1)).isNone ∨ (asNum hW (.num 3)).isNone
        ∨ asNum hW (.num 1) ≠ asNum hW (.num 3)) ∧
    genRel hW envW 5 .lt (.o (.num 2)) (.o (.num 3))
        (some (.ineq [.num 1, .num 2] [true]))
      = .ok (.ineq [.num 1, .num 2, .num 3] [true, true], none) ∧
    genRel hW envW 5 .le (.o (.node 0)) (.o (.num 0))
        (some (.ineq [.num 0, .node 0] [false]))
      = .ok (.eqn (.node 0) (.num 0), none) ∧
    genRel hW envW 5 .le (.o (.node 0)) (.o (.num 0))
        (some (.ineq [.num 0, .node 0] [true]))
      = .error .mismatchedStrictness :=
  ⟨by decide,
   (claim_C3 hW envW 5 (.num 1) (.num 2) (.num 3) (.node 0) (by decide)).1.2,
   (claim_C3 hW envW 5 (.num 1) (.num 2) (.num 3) (.node 0) (by decide)).2.1.2,
   (claim_C3 hW envW 5 (.num 1) (.num 2) (.num 3) (.node 0) (by decide)).2.2.1⟩

/-- C10.  There is no distinct greater-than node: `a > b` and `a ≥ b`
construct an inequality normalized to less-than orientation with
children `(b, a)` and a single strictness flag; a chained `a > b > c`
(whose second desugared call is `b > c`) stores its three children in
reversed order `(c, b, a)` with both strictness flags set. -/
theorem claim_C10 (h : List Node) (env : Env) (n : ℕ) (a0 b0 c0 : Operand)
    (hca : c0 ≠ a0)
    (hnc : (asNum h c0).isNone ∨ (asNum h a0).isNone
        ∨ asNum h c0 ≠ asNum h a0) :
    (genRel h env n .gt (.o a0) (.o b0) none
        = .ok (.ineq [b0, a0] [true], some (.ineq [b0, a0] [true]))) ∧
    (genRel h env n .ge (.o a0) (.o b0) none
        = .ok (.ineq [b0, a0] [false], some (.ineq [b0, a0] [false]))) ∧
    (genRel h env n .gt (.o b0) (.o c0) (some (.ineq [b0, a0] [true]))
        = .ok (.ineq [c0, b0, a0] [true, true], none)) := by
  refine ⟨by simp [genRel, genRelFresh, strictOf],
    by simp [genRel, genRelFresh, strictOf], ?_⟩
  have hfin : finish3 h false c0 b0 a0 true true
      = .ok (.ineq [c0, b0, a0] [true, true]) := by
    rcases hnc with hnc | hnc | hnc
    · rw [Option.isNone_iff_eq_none] at hnc
      simp [finish3, hnc]
    · rw [Option.isNone_iff_eq_none] at hnc
      cases hc : asNum h c0 <;> simp [finish3, hc, hnc]
    · cases hc : asNum h c0 with
      | none => simp [finish3, hc]
      | some v =>
        cases ha : asNum h a0 with
        | none => simp [finish3, hc, ha]
        | some w =>
          have : v ≠ w := by
            intro hvw
            exact hnc (by rw [ha, hc, hvw])
          simp [finish3, hc, ha, this]
  simp [genRel, genRelPending, isIneqOp, strictOf, hca, hfin, Except.map]

/-- Witness for C10 over three distinct variables. -/
theorem claim_C10_witness :
    ((.node 2 : Operand) ≠ .node 0) ∧
    genRel [.varLeaf 0, .varLeaf 1, .varLeaf 2] envW 5 .gt
        (.o (.node 0)) (.o (.node 1)) none
      = .ok (.ineq [.node 1, .node 0] [true],
             some (.ineq [.node 1, .node 0] [true])) ∧
    genRel [.varLeaf 0, .varLeaf 1, .varLeaf 2] envW 5 .gt
        (.o (.node 1)) (.o (.node 2))
        (some (.ineq [.node 1, .node 0] [true]))
      = .ok (.ineq [.node 2, .node 1, .node 0] [true, true], none) :=
  ⟨by decide,
   (claim_C10 [.varLeaf 0, .varLeaf 1, .varLeaf 2] envW 5 (.node 0)
     (.node 1) (.node 2) (by decide) (by decide)).1,
   (claim_C10 [.varLeaf 0, .varLeaf 1, .varLeaf 2] envW 5 (.node 0)
     (.node 1) (.node 2) (by decide) (by decide)).2.2⟩

/-- C5.  The pending slot is empty after every successful
boolean-context evaluation of a relational expression (a); and a stale
pending inequality that is un-fixed and non-constant makes a later
boolean evaluation (b) or a later unrelated relational construction (c)
fail with the unexpected-boolean-context error instead of silently
reusing the stale pending node. -/
theorem claim_C5 (h : List Node) (env : Env) (n : ℕ) (st : Option RelNode)
    (r p : RelNode) (op : RelOp) (x0 y0 a0 b0 : Operand) (s0 : Bool) :
    (∀ res, boolEval h env n st r = .ok res → res.2 = none) ∧
    (relStale h env n p = true →
      boolEval h env n (some p) r = .error .unexpectedBooleanContext) ∧
    (relStale h env n (.ineq [a0, b0] [s0]) = true →
     (op = .eqOp ∨ (x0 ≠ a0 ∧ x0 ≠ b0 ∧ y0 ≠ a0 ∧ y0 ≠ b0)) →
      genRel h env n op (.o x0) (.o y0) (some (.ineq [a0, b0] [s0]))
        = .error .unexpectedBooleanContext) := by
  refine ⟨?_, ?_, ?_⟩
  · intro res hres
    cases st with
    | none =>
      simp only [boolEval] at hres
      cases hres
      rfl
    | some p' =>
      simp only [boolEval] at hres
      by_cases hs : relStale h env n p' = true
      · rw [if_pos hs] at hres
        cases hres
      · rw [if_neg hs] at hres
        cases hres
        rfl
  · intro hs
    simp [boolEval, hs]
  · intro hs hmatch
    rcases hmatch with rfl | ⟨hxa, hxb, hya, hyb⟩
    · simp [genRel, genRelPending, isIneqOp, hs]
    · cases op with
      | eqOp => simp [genRel, genRelPending, isIneqOp, hs]
      | lt => simp [genRel, genRelPending, isIneqOp, strictOf, hxa, hxb,
          hya, hyb, hs]
      | le => simp [genRel, genRelPending, isIneqOp, strictOf, hxa, hxb,
          hya, hyb, hs]
      | gt => simp [genRel, genRelPending, isIneqOp, strictOf, hxa, hxb,
          hya, hyb, hs]
      | ge => simp [genRel, genRelPending, isIneqOp, strictOf, hxa, hxb,
          hya, hyb, hs]

/-- Witness for C5: an un-fixed variable comparison left pending blocks
both a boolean evaluation and an unrelated construction; a successful
boolean evaluation leaves the slot empty. -/
theorem claim_C5_witness :
    relStale hW envW 5 (.ineq [.node 0, .num 0] [false]) = true ∧
    boolEval hW envW 5 (some (.ineq [.node 0, .num 0] [false]))
        (.ineq [.node 0, .num 0] [false])
      = .error .unexpectedBooleanContext ∧
    genRel hW envW 5 .lt (.o (.node 1)) (.o (.num 5))
        (some (.ineq [.node 0, .num 0] [false]))
      = .error .unexpectedBooleanContext ∧
    boolEval hW envW 5 none (.eqn (.node 0) (.num 5))
      = .ok (some true, none) :=
  ⟨by decide,
   (claim_C5 hW envW 5 (some (.ineq [.node 0, .num 0] [false]))
     (.ineq [.node 0, .num 0] [false]) (.ineq [.node 0, .num 0] [false])
     .lt (.node 1) (.num 5) (.node 0) (.num 0) false).2.1 (by decide),
   (claim_C5 hW envW 5 (some (.ineq [.node 0, .num 0] [false]))
     (.ineq [.node 0, .num 0] [false]) (.ineq [.node 0, .num 0] [false])
     .lt (.node 1) (.num 5) (.node 0) (.num 0) false).2.2 (by decide)
     (Or.inr ⟨by decide, by decide, by decide, by decide⟩),
   by norm_num [boolEval, evalRel, evalOp, evalStep, hW, envW]⟩

/-- C6.  Applying a further relational operator to an existing 3-child
inequality, in either direction, fails with the too-many-terms error,
whose class is `ValueError` — distinguishing it from the
`TypeError`-class indexed-operand and relational-composition errors. -/
theorem claim_C6 (h : List Node) (env : Env) (n : ℕ) (args : List Operand)
    (strict : List Bool) (d0 : Operand) (op : RelOp)
    (hop : isIneqOp op = true) (hlen : args.length = 3) :
    genRel h env n op (.r (.ineq args strict)) (.o d0) none
        = .error .tooManyTerms ∧
    genRel h env n op (.o d0) (.r (.ineq args strict)) none
        = .error .tooManyTerms ∧
    pyClass .tooManyTerms = .valueError ∧
    pyClass .indexedOperand = .typeError ∧
    pyClass .bothRelational = .typeError ∧
    pyClass .equalityRelational = .typeError ∧
    isConstructionError .tooManyTerms = true := by
  rcases List.length_eq_three.mp hlen with ⟨a1, a2, a3, rfl⟩
  refine ⟨?_, ?_, rfl, rfl, rfl, rfl, rfl⟩ <;>
    cases op <;> simp_all [genRel, genRelFresh, isIneqOp]

/-- Witness for C6 over a concrete 3-child inequality. -/
theorem claim_C6_witness :
    isIneqOp .lt = true ∧
    ([Operand.node 0, .node 1, .node 2].length = 3) ∧
    genRel hW envW 5 .lt
        (.r (.ineq [.node 0, .node 1, .node 2] [true, true]))
        (.o (.num 9)) none
      = .error .tooManyTerms ∧
    genRel hW envW 5 .lt (.o (.num 9))
        (.r (.ineq [.node 0, .node 1, .node 2] [true, true])) none
      = .error .tooManyTerms ∧
    pyClass .tooManyTerms = .valueError :=
  ⟨by decide, by decide,
   (claim_C6 hW envW 5 [.node 0, .node 1, .node 2] [true, true] (.num 9)
     .lt (by decide) (by decide)).1,
   (claim_C6 hW envW 5 [.node 0, .node 1, .node 2] [true, true] (.num 9)
     .lt (by decide) (by decide)).2.1,
   rfl⟩

/-! ## Lemmas about numbers, degrees and the variable enumerator -/

theorem evalOp_num (h : List Node) (env : Env) (n : ℕ) (c : ℚ) :
    evalOp h env n (.num c) = some c := by
  cases n <;> rfl

theorem degOp_num (h : List Node) (env : Env) (n : ℕ) (c : ℚ) :
    degOp h env n (.num c) = some (.poly 0) := by
  cases n <;> rfl

/-- Everything yielded by the variable-occurrence enumeration is the
index of a variable leaf. -/
theorem varOccs_varLeaf (h : List Node) :
    ∀ n (x : Operand), ∀ j ∈ varOccs h n x,
      ∃ v, h[j]? = some (.varLeaf v) := by
  intro n
  induction n with
  | zero => intro x j hj; simp [varOccs] at hj
  | succ n ih =>
    intro x j hj
    cases x with
    | num c => simp [varOccs, varOccsStep] at hj
    | node i =>
      simp only [varOccs, varOccsStep] at hj
      revert hj
      cases hnd : h[i]? with
      | none => simp
      | some nd =>
        cases nd with
        | varLeaf v =>
          intro hj
          simp only [List.mem_singleton] at hj
          subst hj
          exact ⟨v, hnd⟩
        | interior k args =>
          intro hj
          rcases List.mem_flatten.mp hj with ⟨l, hl, hjl⟩
          rcases List.mem_map.mp hl with ⟨a, ha, rfl⟩
          exact ih a j hjl
        | const c => simp
        | paramLeaf mutb p => simp

theorem dedupFirstAux_mem :
    ∀ (l seen : List ℕ) (j : ℕ),
      j ∈ dedupFirstAux seen l ↔ j ∈ l ∧ j ∉ seen := by
  intro l
  induction l with
  | nil => intro seen j; simp [dedupFirstAux]
  | cons x xs ih =>
    intro seen j
    by_cases hx : x ∈ seen
    · simp only [dedupFirstAux, if_pos hx, ih, List.mem_cons]
      constructor
      · rintro ⟨hj, hjs⟩
        exact ⟨Or.inr hj, hjs⟩
      · rintro ⟨hj | hj, hjs⟩
        · exact absurd (hj ▸ hx) hjs
        · exact ⟨hj, hjs⟩
    · rw [dedupFirstAux, if_neg hx]
      simp only [List.mem_cons, ih]
      constructor
      · rintro (rfl | ⟨hj, hjs⟩)
        · exact ⟨Or.inl rfl, hx⟩
        · exact ⟨Or.inr hj, fun hjy => hjs (by simp [hjy])⟩
      · rintro ⟨rfl | hj, hjs⟩
        · exact Or.inl rfl
        · by_cases hjx : j = x
          · exact Or.inl hjx
          · exact Or.inr ⟨hj, by simp [hjx, hjs]⟩

theorem dedupFirstAux_nodup :
    ∀ (l seen : List ℕ), (dedupFirstAux seen l).Nodup := by
  intro l
  induction l with
  | nil => intro seen; simp [dedupFirstAux]
  | cons x xs ih =>
    intro seen
    by_cases hx : x ∈ seen
    · simpa [dedupFirstAux, if_pos hx] using ih seen
    · simp only [dedupFirstAux, if_neg hx, List.nodup_cons]
      refine ⟨?_, ih (x :: seen)⟩
      intro hmem
      have := (dedupFirstAux_mem xs (x :: seen) x).mp hmem
      simp at this

theorem dedupFirstAux_pairwise :
    ∀ (l seen : List ℕ),
      (dedupFirstAux seen l).Pairwise
        (fun u v => l.indexOf u < l.indexOf v) := by
  intro l
  induction l with
  | nil => intro seen; simp [dedupFirstAux]
  | cons x xs ih =>
    intro seen
    by_cases hx : x ∈ seen
    · rw [dedupFirstAux, if_pos hx]
      refine (ih seen).imp_of_mem ?_
      intro u v hu hv huv
      have hun : u ≠ x := by
        have := (dedupFirstAux_mem xs seen u).mp hu
        intro hux
        exact this.2 (hux ▸ hx)
      have hvn : v ≠ x := by
        have := (dedupFirstAux_mem xs seen v).mp hv
        intro hvx
        exact this.2 (hvx ▸ hx)
      rw [List.indexOf_cons_ne _ (fun hh => hun hh.symm),
        List.indexOf_cons_ne _ (fun hh => hvn hh.symm)]
      omega
    · rw [dedupFirstAux, if_neg hx]
      refine List.Pairwise.cons ?_ ?_
      · intro v hv
        have hvx : v ≠ x := by
          have := (dedupFirstAux_mem xs (x :: seen) v).mp hv
          intro hvv
          exact this.2 (by simp [hvv])
        rw [List.indexOf_cons_self, List.indexOf_cons_ne _
          (fun hh => hvx hh.symm)]
        omega
      · refine (ih (x :: seen)).imp_of_mem ?_
        intro u v hu hv huv
        have hun : u ≠ x := by
          have := (dedupFirstAux_mem xs (x :: seen) u).mp hu
          intro hux
          exact this.2 (by simp [hux])
        have hvn : v ≠ x := by
          have := (dedupFirstAux_mem xs (x :: seen) v).mp hv
          intro hvx
          exact this.2 (by simp [hvx])
        rw [List.indexOf_cons_ne _ (fun hh => hun hh.symm),
          List.indexOf_cons_ne _ (fun hh => hvn hh.symm)]
        omega

/-- C7.  `polynomial_degree(pow(a*a, 2))` is 4 for an unfixed variable
`a` (i) and 0 once `a` is fixed (ii); and with a non-integer (or
negative) numeric exponent the degree is the non-polynomial sentinel
whenever the base subtree is not fixed/constant, i.e. has non-zero
degree (iii), while a fixed/constant (degree-0) base gives degree 0
(iv). -/
theorem claim_C7 :
    degOp powAA2.1 envW 9 powAA2.2 = some (.poly 4) ∧
    degOp powAA2.1 envWf 9 powAA2.2 = some (.poly 0) ∧
    (∀ (h : List Node) (env : Env) (n i : ℕ) (b : Operand) (q : ℚ)
       (db : Deg),
      h[i]? = some (.interior .pw [b, .num q]) →
      ¬(q.den = 1 ∧ 0 ≤ q.num) →
      degOp h env n b = some db → db ≠ .poly 0 →
      degOp h env (n + 1) (.node i) = some .nonpoly) ∧
    (∀ (h : List Node) (env : Env) (n i : ℕ) (b : Operand) (q : ℚ),
      h[i]? = some (.interior .pw [b, .num q]) →
      ¬(q.den = 1 ∧ 0 ≤ q.num) →
      degOp h env n b = some (.poly 0) →
      degOp h env (n + 1) (.node i) = some (.poly 0)) := by
  refine ⟨by decide, by decide, ?_, ?_⟩
  · intro h env n i b q db hnd hq hdb hdbne
    have hstep : degOp h env (n + 1) (.node i)
        = degStep h env n (degOp h env n) (.node i) := rfl
    rw [hstep]
    have hq2 : ¬(q.den = 1 ∧ 0 ≤ q) := fun hc =>
      hq ⟨hc.1, Rat.num_nonneg.mpr hc.2⟩
    have hq0 : q ≠ 0 := by
      intro h0
      subst h0
      exact hq (by norm_num)
    cases db with
    | poly m =>
      have hm : m ≠ 0 := fun hm => hdbne (by rw [hm])
      simp [degStep, hnd, hdb, degOp_num, seqOpt, degKind, evalOp_num,
        hq, hq2, hq0, hm]
    | nonpoly =>
      simp [degStep, hnd, hdb, degOp_num, seqOpt, degKind, evalOp_num,
        hq, hq2, hq0]
  · intro h env n i b q hnd hq hdb
    have hstep : degOp h env (n + 1) (.node i)
        = degStep h env n (degOp h env n) (.node i) := rfl
    rw [hstep]
    have hq2 : ¬(q.den = 1 ∧ 0 ≤ q) := fun hc =>
      hq ⟨hc.1, Rat.num_nonneg.mpr hc.2⟩
    simp [degStep, hnd, hdb, degOp_num, seqOpt, degKind, evalOp_num, hq,
      hq2]

/-- Witness for C7: the non-integer exponent 2.1 over `a*a`, unfixed
(degree 2 base, sentinel result) and fixed (degree 0). -/
theorem claim_C7_witness :
    degOp powAA2.1 envW 9 powAA2.2 = some (.poly 4) ∧
    (powAA21.1[2]? = some (.interior .pw [.node 1, .num q21])) ∧
    ¬(q21.den = 1 ∧ 0 ≤ q21.num) ∧
    degOp powAA21.1 envW 8 (.node 1) = some (.poly 2) ∧
    degOp powAA21.1 envW 9 (.node 2) = some .nonpoly ∧
    degOp powAA21.1 envWf 8 (.node 1) = some (.poly 0) ∧
    degOp powAA21.1 envWf 9 (.node 2) = some (.poly 0) :=
  ⟨claim_C7.1, by decide, by decide, by decide,
   claim_C7.2.2.1 powAA21.1 envW 8 2 (.node 1) q21 (.poly 2) (by decide)
     (by decide) (by decide) (by decide),
   by decide,
   claim_C7.2.2.2 powAA21.1 envWf 8 2 (.node 1) q21 (by decide) (by decide)
     (by decide)⟩

/-- C8.  The variable enumerator without duplicates yields each
reachable variable leaf exactly once (1), exactly the leaves that occur
(2), in first-encounter order of the depth-first occurrence list (3);
with duplicates allowed it yields every occurrence (4); everything
yielded is a variable leaf (5); an arena without variable leaves yields
the empty list (6); and external-function argument lists are traversed
exactly like ordinary children (7). -/
theorem claim_C8 (h : List Node) (n : ℕ) (x : Operand) :
    (identifyVariables h n false x).Nodup ∧
    (∀ j, j ∈ identifyVariables h n false x ↔ j ∈ varOccs h n x) ∧
    (identifyVariables h n false x).Pairwise
      (fun u v => (varOccs h n x).indexOf u < (varOccs h n x).indexOf v) ∧
    identifyVariables h n true x = varOccs h n x ∧
    (∀ j ∈ varOccs h n x, ∃ v, h[j]? = some (.varLeaf v)) ∧
    (noVars h = true → identifyVariables h n false x = []) ∧
    (∀ i f args, h[i]? = some (.interior (.extfn f) args) →
      varOccs h (n + 1) (.node i) = (args.map (varOccs h n)).flatten) := by
  refine ⟨?_, ?_, ?_, rfl, varOccs_varLeaf h n x, ?_, ?_⟩
  · simpa [identifyVariables, dedupFirst] using
      dedupFirstAux_nodup (varOccs h n x) []
  · intro j
    simp [identifyVariables, dedupFirst, dedupFirstAux_mem]
  · simpa [identifyVariables, dedupFirst] using
      dedupFirstAux_pairwise (varOccs h n x) []
  · intro hnv
    rw [List.eq_nil_iff_forall_not_mem]
    intro j hj
    have hj' : j ∈ dedupFirstAux [] (varOccs h n x) := hj
    rw [dedupFirstAux_mem] at hj'
    obtain ⟨v, hv⟩ := varOccs_varLeaf h n x j hj'.1
    have hmem : (Node.varLeaf v) ∈ h := by
      rcases List.getElem?_eq_some.mp hv with ⟨hlt, hval⟩
      exact hval ▸ List.getElem_mem hlt
    have := List.all_eq_true.mp hnv _ hmem
    simp at this
  · intro i f args hnd
    simp [varOccs, varOccsStep, hnd]

/-- Witness for C8: `a ** a + a` yields `[a]` and, with duplicates,
`[a, a, a]`; a parameter-only arena yields nothing; external-function
arguments are traversed. -/
theorem claim_C8_witness :
    identifyVariables dupExpr.1 9 false dupExpr.2 = [0] ∧
    identifyVariables dupExpr.1 9 true dupExpr.2 = [0, 0, 0] ∧
    noVars hParams = true ∧
    identifyVariables hParams 9 false (.node 2) = [] ∧
    identifyVariables hExt 9 false (.node 3) = [0, 1] ∧
    (identifyVariables dupExpr.1 9 false dupExpr.2).Nodup :=
  ⟨by decide, by decide, by decide,
   (claim_C8 hParams 9 (.node 2)).2.2.2.2.2.1 (by decide),
   by decide,
   (claim_C8 dupExpr.1 9 dupExpr.2).1⟩

end PyomoExpr
